import Mathlib

/-!
Shallow embedding of the appstore-review-api core (app/utils/text.py,
app/collectors/rss_client.py, app/services/review_service.py,
app/services/metrics_service.py, app/services/insights_service.py,
app/nlp/recommender_llm.py, app/models.py).

Modelling conventions:
* The SQLAlchemy store is a list of `StoredReview` rows in insertion order.
  The session is created with `autoflush=False` (app/database.py), so queries
  issued while a batch is being built see only the committed rows; pending
  `db.add` objects become visible at `db.commit()`.  The unique constraint
  `(app_id, country, review_id)` from app/models.py is enforced at commit:
  a violating commit raises IntegrityError and nothing is stored.  We model
  the commit outcome with `Option`: `none` is the IntegrityError case.
* `random.shuffle` and `random.getrandbits(32)` are nondeterministic: the
  shuffled pool is passed as an argument, and the synthesized review ids are
  drawn from a supplied sequence `f : Nat -> String` with a running index.
* Python machine floats are modelled as exact rationals; `round(x, 2)` is
  modelled as decimal round-half-to-even on the exact value.
* Python `int(s)` is modelled as strip-whitespace, optional sign, decimal
  digits (digit-group underscores are not modelled); failure is `none`.
* External ML capabilities (transformers pipelines, sklearn TF-IDF) are
  modelled as oracle parameters; the code surrounding them is embedded.
-/

/-! ## Text Normalizer (app/utils/text.py) -/

/-- Whitespace as matched by Python regex whitespace and `str.strip` (the
common subset: ASCII whitespace, NEL, NBSP, and the line/paragraph
separators; exotic Unicode spaces are not modelled).  U+200B is
deliberately NOT whitespace. -/
def isPyWs (c : Char) : Bool :=
  c = ' ' || c = '\t' || c = '\n' || c = '\x0d' || c = '\x0b' || c = '\x0c' ||
  c = '\x85' || c = '\u00A0' || c = '\u2028' || c = '\u2029' || c = '\u3000'

/-- One character of the two `str.replace` calls: U+200B and U+00A0 become
an ordinary space. -/
def replWs (c : Char) : Char :=
  if c = '\u200B' || c = '\u00A0' then ' ' else c

/-- State-machine form of the whitespace-run collapse: the Bool records
whether the previous character was whitespace (the current run is already
emitted as one space). -/
def collapseWs : Bool → List Char → List Char
  | _, [] => []
  | prevWs, c :: cs =>
    if isPyWs c then
      if prevWs then collapseWs true cs else ' ' :: collapseWs true cs
    else
      c :: collapseWs false cs

/-- Drop trailing whitespace (the right half of `str.strip`). -/
def dropTrailWs : List Char → List Char
  | [] => []
  | c :: cs =>
    let r := dropTrailWs cs
    if r.isEmpty && isPyWs c then [] else c :: r

/-- `str.strip()` on a character list. -/
def pstrip (l : List Char) : List Char :=
  dropTrailWs (l.dropWhile isPyWs)

/-- Character-list core of `clean_text`. -/
def cleanList (l : List Char) : List Char :=
  pstrip (collapseWs false (l.map replWs))

/-- `clean_text` from app/utils/text.py: the empty-string guard, then
replace U+200B and U+00A0 by a space, collapse whitespace runs to a single
space, and strip. -/
def clean_text (s : String) : String :=
  if s.data.isEmpty then "" else String.mk (cleanList s.data)

/-! ## Decimal rounding (model of Python `round(x, 2)`) -/

/-- Round a rational to the nearest integer, ties to even. -/
def roundHalfEven (q : ℚ) : ℤ :=
  let n := q.floor
  let f := q - (n : ℚ)
  if f < 1/2 then n
  else if 1/2 < f then n + 1
  else if n % 2 = 0 then n else n + 1

/-- `round(q, 2)` as exact decimal rounding of the exact rational value. -/
def round2 (q : ℚ) : ℚ :=
  (roundHalfEven (q * 100) : ℚ) / 100

/-! ## Data model (app/models.py, candidate dicts from the collector) -/

/-- A persisted row of the `reviews` table.  The surrogate integer id is
omitted (it never participates in the logic); `date` is an abstract
timestamp.  `rating` is kept as `Option` to mirror the attribute-level
guards in the aggregation code. -/
structure StoredReview where
  app_id : String
  country : String
  review_id : String
  author : String
  title : String
  text : String
  rating : Option Int
  version : String
  date : Option Int
  source : String
  language : String
deriving DecidableEq

/-- A candidate review dict as produced by `RSSCollector.fetch` and consumed
by `upsert_reviews`.  `rating = none` is a missing key; the other keys are
always present in collector output (string defaults applied). -/
structure ReviewRecord where
  review_id : String
  author : String
  title : String
  text : String
  rating : Option Int
  version : String
  date : Option Int
  source : String
  language : String
deriving DecidableEq

/-- Python truthiness of `r.get('rating')`: false for a missing key and for
rating 0. -/
def recTruthy (r : ReviewRecord) : Bool :=
  match r.rating with
  | none => false
  | some v => v != 0

/-- The `filter_by(app_id=..., country=...)` predicate. -/
def keyMatch (a c : String) (row : StoredReview) : Bool :=
  row.app_id == a && row.country == c

/-- `db.query(Review).filter_by(app_id=a, country=c).count()`. -/
def countKey (db : List StoredReview) (a c : String) : Nat :=
  db.countP (keyMatch a c)

/-- The duplicate lookup `filter_by(app_id=a, country=c, review_id=rid)`,
reduced to existence. -/
def foundIn (db : List StoredReview) (a c rid : String) : Bool :=
  db.any (fun row => row.app_id == a && row.country == c && row.review_id == rid)

/-- Two rows collide on the unique constraint `(app_id, country, review_id)`
of app/models.py. -/
def sameKey (p q : StoredReview) : Bool :=
  p.app_id == q.app_id && p.country == q.country && p.review_id == q.review_id

/-- No two rows of the list collide on the unique constraint. -/
def distinctKeys : List StoredReview → Bool
  | [] => true
  | p :: ps => ps.all (fun q => !sameKey p q) && distinctKeys ps

/-- The commit succeeds iff the pending inserts neither collide with each
other nor with a committed row (the unique-constraint check performed when
the INSERTs are flushed at `db.commit()`). -/
def commitOk (db pending : List StoredReview) : Bool :=
  distinctKeys pending && pending.all (fun p => !(db.any (fun row => sameKey row p)))

/-! ## Ingestion Pipeline (app/services/review_service.py) -/

/-- The `Review(...)` constructor call inside the insert branch of
`upsert_reviews`: author, title and text are normalized, a falsy (empty)
source-supplied review id has been replaced by `rid`. -/
def mkStored (a c : String) (r : ReviewRecord) (rid : String) : StoredReview :=
  { app_id := a, country := c, review_id := rid,
    author := clean_text r.author, title := clean_text r.title,
    text := clean_text r.text, rating := some (r.rating.getD 0),
    version := r.version, date := r.date,
    source := r.source, language := r.language }

/-- The loop body of `upsert_reviews`: walks the candidate list, skipping
falsy-rating candidates and candidates whose `(app_id, country, review_id)`
is already committed (queries do not see pending adds: `autoflush=False`).
Returns (pending rows in `db.add` order, inserted counter, next index into
the synthesized-id sequence `f`). -/
def upsertPending (db : List StoredReview) (a c : String) :
    List ReviewRecord → (Nat → String) → Nat → List StoredReview × Nat × Nat
  | [], _, k => ([], 0, k)
  | r :: rs, f, k =>
    if recTruthy r = false then upsertPending db a c rs f k
    else if foundIn db a c r.review_id then upsertPending db a c rs f k
    else
      (mkStored a c r (if r.review_id == "" then f k else r.review_id) ::
         (upsertPending db a c rs f (if r.review_id == "" then k + 1 else k)).1,
       (upsertPending db a c rs f (if r.review_id == "" then k + 1 else k)).2.1 + 1,
       (upsertPending db a c rs f (if r.review_id == "" then k + 1 else k)).2.2)

/-- `upsert_reviews(db, app_id, country, rows)`: build the pending batch,
then commit it as one unit.  `none` models the IntegrityError raised when
the flushed INSERTs violate the unique constraint (the transaction is
rolled back, the store is unchanged).  On success returns the new store,
the `inserted` counter, and the next synthesized-id index. -/
def upsert_reviews (db : List StoredReview) (a c : String) (rows : List ReviewRecord)
    (f : Nat → String) (k : Nat) : Option (List StoredReview × Nat × Nat) :=
  let p := upsertPending db a c rows f k
  if commitOk db p.1 then some (db ++ p.1, p.2.1, p.2.2) else none

/-- The store after a call: unchanged when the commit raised. -/
def storeAfter (db : List StoredReview) :
    Option (List StoredReview × Nat × Nat) → List StoredReview
  | none => db
  | some t => t.1

/-- `collect_reviews(db, app_id, country, how_many)`: the fetched pool and
its shuffled arrangement are parameters (the collector's HTTP fetch and
`random.shuffle` are external effects).  An empty pool returns (0, 0) with
no storage access; otherwise the first `how_many` shuffled candidates are
upserted and `(inserted, after - before)` is returned. -/
def collect_reviews (db : List StoredReview) (a c : String) (how_many : Nat)
    (pool shuffled : List ReviewRecord) (f : Nat → String) (k : Nat) :
    Option ((Nat × Int) × List StoredReview × Nat) :=
  if pool.isEmpty then some ((0, 0), db, k)
  else
    let sample := shuffled.take how_many
    let before := countKey db a c
    match upsert_reviews db a c sample f k with
    | none => none
    | some (db2, ins, k2) =>
      some ((ins, (countKey db2 a c : Int) - (before : Int)), db2, k2)

/-! ## Metrics Aggregator (app/services/metrics_service.py) -/

/-- Insert into an ascending duplicate-free list of rating values. -/
def insSorted (x : Int) : List Int → List Int
  | [] => [x]
  | y :: ys =>
    if x < y then x :: y :: ys
    else if x = y then y :: ys
    else y :: insSorted x ys

/-- The distinct values of the list in ascending order: the key set of
the sorted Counter items. -/
def distinctSorted (l : List Int) : List Int :=
  l.foldr insSorted []

/-- The dict returned by `compute_metrics` (distribution keys are the
stringified rating values, in ascending rating order). -/
structure MetricsSnapshot where
  count : Nat
  average_rating : ℚ
  distribution : List (String × ℚ)
deriving DecidableEq

/-- `compute_metrics(db, app_id, country)`. -/
def compute_metrics (db : List StoredReview) (a c : String) : MetricsSnapshot :=
  let rows := db.filter (keyMatch a c)
  if rows.isEmpty then { count := 0, average_rating := 0, distribution := [] }
  else
    let ratings := rows.filterMap (fun r => r.rating)
    let avg : ℚ :=
      if ratings.isEmpty then 0
      else ((ratings.foldl (· + ·) 0 : Int) : ℚ) / (ratings.length : ℚ)
    let total := ratings.length
    let dist := (distinctSorted ratings).map (fun v =>
      (toString v, round2 ((ratings.count v : ℚ) * 100 / (total : ℚ))))
    { count := total, average_rating := round2 avg, distribution := dist }

/-! ## Feed Collector (app/collectors/rss_client.py) -/

/-- Python `int(s)` on the digit part (no digits means failure). -/
def digitsValAux : Nat → List Char → Option Nat
  | acc, [] => some acc
  | acc, ch :: cs =>
    if ch.isDigit then digitsValAux (acc * 10 + (ch.toNat - '0'.toNat)) cs else none

/-- Decimal digit run to a value; empty run fails. -/
def digitsVal (l : List Char) : Option Nat :=
  if l.isEmpty then none else digitsValAux 0 l

/-- Python `int(s)` for strings: strip whitespace, optional sign, decimal
digits.  `none` models the ValueError.  (Digit-group underscores are not
modelled.) -/
def pyInt (s : String) : Option Int :=
  match pstrip s.data with
  | '+' :: ds => (digitsVal ds).map (fun n => (n : Int))
  | '-' :: ds => (digitsVal ds).map (fun n => -(n : Int))
  | ds => (digitsVal ds).map (fun n => (n : Int))

/-- One JSON feed entry, reduced to the key paths the collector reads.
`imRating = none` means the entry has no rating key at all (it is skipped
as app metadata); `some none` means the rating key is present but has no
label (the dict default 0 applies); `some (some s)` is a rating label
string passed to `int`. -/
structure FeedEntry where
  imRating : Option (Option String)
  idLabel : Option String
  titleLabel : Option String
  contentLabel : Option String
  authorLabel : Option String
  versionLabel : Option String
  updatedLabel : Option String
deriving DecidableEq

/-- One page of the remote feed: `fail` covers a non-200 status, a network
error, or malformed JSON (the page-level try/except); `ok none` is valid
JSON whose feed has no entry list; `ok (some es)` is a parsed entry list. -/
inductive FeedPage where
  | fail : FeedPage
  | ok : Option (List FeedEntry) → FeedPage
deriving DecidableEq

/-- The timestamp label with the Z suffix spelled as a UTC offset. -/
def replaceZ (s : String) : String :=
  String.mk (s.data.foldr (fun ch acc =>
    (if ch = 'Z' then ['+', '0', '0', ':', '0', '0'] else [ch]) ++ acc) [])

/-- Build the candidate dict for one accepted entry (title and content are
normalized here; the author is not).  `parseIso` is the external ISO-8601
parser `datetime.fromisoformat`; its failure yields an absent date via the
inner try/except. -/
def mkRecord (parseIso : String → Option Int) (e : FeedEntry) (rat : Int) : ReviewRecord :=
  { review_id := e.idLabel.getD "",
    author := e.authorLabel.getD "",
    title := clean_text (e.titleLabel.getD ""),
    text := clean_text (e.contentLabel.getD ""),
    rating := some rat,
    version := e.versionLabel.getD "",
    date :=
      (let lbl := e.updatedLabel.getD ""
       if lbl = "" then none else parseIso (replaceZ lbl)),
    source := "rss", language := "" }

/-- The per-page entry loop.  An entry without a rating key is skipped; a
rating label that `int` cannot parse raises inside the page-level try, so
the records appended so far survive but the REST OF THE PAGE IS ABANDONED. -/
def processEntries (parseIso : String → Option Int) : List FeedEntry → List ReviewRecord
  | [] => []
  | e :: es =>
    match e.imRating with
    | none => processEntries parseIso es
    | some lab =>
      match (match lab with | none => some 0 | some s => pyInt s) with
      | none => []
      | some rat => mkRecord parseIso e rat :: processEntries parseIso es

/-- `RSSCollector.fetch`: the list of page outcomes stands for the
`max_pages` sequential HTTP requests; a failed page contributes nothing and
the loop proceeds.  The call itself never raises. -/
def RSSCollector_fetch (parseIso : String → Option Int) (pages : List FeedPage) :
    List ReviewRecord :=
  pages.foldr (fun p acc =>
    (match p with
     | FeedPage.fail => []
     | FeedPage.ok entryOpt => processEntries parseIso (entryOpt.getD [])) ++ acc) []

/-! ## Recommendation generator (app/nlp/recommender_llm.py)

The transformers pipeline and the chat-template prompt construction are
external capabilities: the two generated texts (JSON attempt and bullet
attempt) enter as parameters, as does `json.loads` (whose success case is
the parsed array already stringified element-wise, matching the
comprehension over the array under the `isinstance(arr, list)` guard). -/

/-- Drop trailing full stops (`str.rstrip` with a dot). -/
def dropTrailDot : List Char → List Char
  | [] => []
  | c :: cs =>
    let r := dropTrailDot cs
    if r.isEmpty && c = '.' then [] else c :: r

/-- `rstrip` of trailing dots on a string. -/
def rstripDot (s : String) : String :=
  String.mk (dropTrailDot s.data)

/-- `s.lower()` (ASCII case folding; exotic Unicode case is not modelled). -/
def pyLower (s : String) : String :=
  String.mk (s.data.map Char.toLower)

/-- `s.strip()` for strings. -/
def pyStrip (s : String) : String :=
  String.mk (pstrip s.data)

/-- The balanced-array scanner of `_extract_json_array`, from the first
opening bracket onward: tracks nesting depth, string state, and escape
state, and returns the slice up to the matching close bracket. -/
def scanArr : Nat → Bool → Bool → List Char → List Char → Option String
  | _, _, _, _, [] => none
  | depth, inStr, esc, acc, ch :: cs =>
    if inStr then
      if esc then scanArr depth true false (ch :: acc) cs
      else if ch = '\\' then scanArr depth true true (ch :: acc) cs
      else if ch = '"' then scanArr depth false false (ch :: acc) cs
      else scanArr depth true false (ch :: acc) cs
    else
      if ch = '"' then scanArr depth true false (ch :: acc) cs
      else if ch = '[' then scanArr (depth + 1) false false (ch :: acc) cs
      else if ch = ']' then
        if depth = 1 then some (String.mk ((ch :: acc).reverse))
        else scanArr (depth - 1) false false (ch :: acc) cs
      else scanArr depth false false (ch :: acc) cs

/-- `_extract_json_array`: first balanced JSON array of the text, `none`
when there is no opening bracket or no balanced close. -/
def extract_json_array (s : String) : Option String :=
  match s.data.dropWhile (fun ch => ch != '[') with
  | [] => none
  | l => scanArr 0 false false [] l

/-- `_dedupe_keep_order` with the running `seen` key set. -/
def dedupeAux : List String → List String → List String
  | _, [] => []
  | seen, s :: rest =>
    let t := pyStrip s
    let key := rstripDot (pyLower t)
    if key != "" && !(seen.contains key) then
      rstripDot t :: dedupeAux (key :: seen) rest
    else dedupeAux seen rest

/-- `_dedupe_keep_order(items)`. -/
def dedupeKeepOrder (items : List String) : List String :=
  dedupeAux [] items

/-- Number of words of `ln.split()` (maximal non-whitespace runs). -/
def wcAux : Bool → List Char → Nat
  | _, [] => 0
  | inWord, c :: cs =>
    if isPyWs c then wcAux false cs
    else (if inWord then 0 else 1) + wcAux true cs

/-- `len(ln.split())`. -/
def wordCount (l : List Char) : Nat :=
  wcAux false l

/-- The strict-JSON first attempt: extract the array from the generated
text, parse it, dedupe, clip to 5, and accept only 3 to 5 items. -/
def jsonAttempt (out1 : String) (loads : String → Option (List String)) :
    Option (List String) :=
  match extract_json_array out1 with
  | none => none
  | some blob =>
    match loads blob with
    | none => none
    | some arr =>
      let arr2 := (dedupeKeepOrder arr).take 5
      if 3 ≤ arr2.length && arr2.length ≤ 5 then some arr2 else none

/-- The bullet-list second attempt: keep lines starting with a dash-space,
strip the marker, drop short lines (fewer than 3 words), dedupe, clip to 5. -/
def bulletLines (out2 : String) : List String :=
  let lines := (out2.split (fun ch => ch = '\n')).filterMap (fun ln =>
    match pstrip ln.data with
    | '-' :: ' ' :: rest => some (String.mk (dropTrailDot (pstrip rest)))
    | _ => none)
  let good := lines.filter (fun ln => 3 ≤ wordCount ln.data)
  (dedupeKeepOrder good).take 5

/-- The guard message returned when no negative texts are supplied. -/
def noNegMsg : String :=
  "No sufficiently negative feedback found to generate recommendations."

/-- The hard-coded final fallback list. -/
def fallbackRecs : List String :=
  ["Reduce crashes and errors in top user flows",
   "Clarify pricing, trials and cancellation inside the app",
   "Improve login and account recovery reliability",
   "Optimize performance on older devices and slow networks",
   "Tighten billing, refunds and support escalation paths"]

/-- `generate_recommendations_from_reviews(negative_texts)` with the two
generated texts and the JSON parser as oracle parameters. -/
def generate_recommendations_from_reviews (out1 out2 : String)
    (loads : String → Option (List String)) (negative_texts : List String) :
    List String :=
  if negative_texts.isEmpty then [noNegMsg]
  else
    match jsonAttempt out1 loads with
    | some arr => arr
    | none =>
      let lines3 := bulletLines out2
      if lines3.isEmpty then fallbackRecs else lines3

/-! ## Insights Aggregator (app/nlp/sentiment.py, app/nlp/keywords.py,
app/services/insights_service.py) -/

/-- The three labels `classify_sentiment` can return. -/
inductive Sentiment where
  | negative : Sentiment
  | neutral : Sentiment
  | positive : Sentiment
deriving DecidableEq

/-- `classify_sentiment(text)`: empty text is neutral by convention, any
other text goes to the external model (the oracle). -/
def classify_sentiment (oracle : String → Sentiment) (text : String) : Sentiment :=
  if text == "" then Sentiment.neutral else oracle text

/-- `top_keywords(texts, top_k)`: the empty-input guard is repo code; the
TF-IDF vectorizer, mean scoring and ranking are the external sklearn
capability, modelled as the oracle's ranked feature list. -/
def top_keywords (vecRank : List String → List String) (texts : List String)
    (top_k : Nat) : List String :=
  if texts.isEmpty then [] else (vecRank texts).take top_k

/-- Keys of a Python `Counter` built from the list: distinct values in
first-encounter order. -/
def firstOccAux : List Sentiment → List Sentiment → List Sentiment
  | _, [] => []
  | seen, x :: xs =>
    if seen.contains x then firstOccAux seen xs
    else x :: firstOccAux (x :: seen) xs

/-- The distinct labels of the list in first-encounter order. -/
def firstOcc (l : List Sentiment) : List Sentiment :=
  firstOccAux [] l

/-- The dict returned by `analyze_insights`. -/
structure InsightsSnapshot where
  sentiment_counts : List (Sentiment × Nat)
  sentiment_percent : List (Sentiment × ℚ)
  top_negative_keywords : List String
  recommendations : List String
deriving DecidableEq

/-- `analyze_insights(db, app_id, country)`: tallies sentiment labels,
turns them into percentages with a denominator defaulted to 1 on an empty
review set, re-filters negatives, and calls the keyword and recommendation
capabilities. -/
def analyze_insights (oracle : String → Sentiment) (vecRank : List String → List String)
    (out1 out2 : String) (loads : String → Option (List String))
    (db : List StoredReview) (a c : String) : InsightsSnapshot :=
  let rows := db.filter (keyMatch a c)
  let sentiments := rows.map (fun r => classify_sentiment oracle r.text)
  let present := firstOcc sentiments
  let total : Nat := if sentiments.isEmpty then 1 else sentiments.length
  let negatives := rows.filterMap (fun r =>
    if classify_sentiment oracle r.text = Sentiment.negative then some r.text else none)
  { sentiment_counts := present.map (fun l => (l, sentiments.count l)),
    sentiment_percent := present.map (fun l =>
      (l, round2 ((sentiments.count l : ℚ) * 100 / (total : ℚ)))),
    top_negative_keywords := top_keywords vecRank negatives 15,
    recommendations := generate_recommendations_from_reviews out1 out2 loads negatives }

/-! ## Statement-side predicates used by the claims -/

/-- No two adjacent characters are both whitespace. -/
def noAdjWs : List Char → Bool
  | a :: b :: t => (!(isPyWs a && isPyWs b)) && noAdjWs (b :: t)
  | _ => true

/-- The first character, if any, is not whitespace. -/
def headWsFree : List Char → Bool
  | [] => true
  | c :: _ => !isPyWs c

/-- The last character, if any, is not whitespace. -/
def lastWsFree : List Char → Bool
  | [] => true
  | [c] => !isPyWs c
  | _ :: b :: t => lastWsFree (b :: t)

/-! ## Concrete fixtures for witnesses and counterexamples -/

/-- A deterministic stand-in for the synthesized-id sequence
(`rss-` followed by a random 32-bit value): the n-th generated id. -/
def frId (n : Nat) : String :=
  "rss-" ++ toString n

/-- A well-formed candidate with a source-supplied review id. -/
def recA : ReviewRecord :=
  { review_id := "a1", author := "", title := "", text := "",
    rating := some 5, version := "", date := none, source := "rss", language := "" }

/-- A second distinct well-formed candidate. -/
def recB : ReviewRecord :=
  { review_id := "b2", author := "", title := "", text := "",
    rating := some 4, version := "", date := none, source := "rss", language := "" }

/-- A third distinct well-formed candidate. -/
def recC : ReviewRecord :=
  { review_id := "c3", author := "", title := "", text := "",
    rating := some 1, version := "", date := none, source := "rss", language := "" }

/-- A rated candidate whose source-supplied review id is empty. -/
def recEmptyId : ReviewRecord :=
  { review_id := "", author := "", title := "", text := "",
    rating := some 5, version := "", date := none, source := "rss", language := "" }

/-- A candidate whose rating 6 lies outside 1 to 5 but is Python-truthy. -/
def recSix : ReviewRecord :=
  { review_id := "x6", author := "", title := "", text := "",
    rating := some 6, version := "", date := none, source := "rss", language := "" }

/-- The stored row produced by inserting `recA` under ("app1", "us"). -/
def rvA : StoredReview :=
  { app_id := "app1", country := "us", review_id := "a1",
    author := "", title := "", text := "", rating := some 5,
    version := "", date := none, source := "rss", language := "" }

/-- The stored row produced by inserting `recEmptyId` with synthesized id
`frId 0` under ("app1", "us"). -/
def rvE0 : StoredReview :=
  { app_id := "app1", country := "us", review_id := "rss-0",
    author := "", title := "", text := "", rating := some 5,
    version := "", date := none, source := "rss", language := "" }

/-- The stored row produced by the second insertion of `recEmptyId`, with
synthesized id `frId 1`. -/
def rvE1 : StoredReview :=
  { app_id := "app1", country := "us", review_id := "rss-1",
    author := "", title := "", text := "", rating := some 5,
    version := "", date := none, source := "rss", language := "" }

/-- A stored row for the metrics example, parameterized by rating. -/
def srOf (rid : String) (v : Int) : StoredReview :=
  { app_id := "app1", country := "us", review_id := rid,
    author := "", title := "", text := "", rating := some v,
    version := "", date := none, source := "rss", language := "" }

/-- The metrics example store: three reviews rated 5, 5, 3. -/
def dbMetricsEx : List StoredReview :=
  [srOf "m1" 5, srOf "m2" 5, srOf "m3" 3]

/-- A feed entry with a present rating key but an unparseable label. -/
def entryBadRating : FeedEntry :=
  { imRating := some (some "x"), idLabel := some "e1", titleLabel := some "t1",
    contentLabel := some "c1", authorLabel := some "au1",
    versionLabel := some "1.0", updatedLabel := none }

/-- A fully valid feed entry rated 5. -/
def entryGood : FeedEntry :=
  { imRating := some (some "5"), idLabel := some "e2", titleLabel := some "t2",
    contentLabel := some "c2", authorLabel := some "au2",
    versionLabel := some "1.0", updatedLabel := none }

/-- A feed entry whose rating key is present but has no label. -/
def entryNoLabel : FeedEntry :=
  { imRating := some none, idLabel := some "e3", titleLabel := some "t3",
    contentLabel := some "c3", authorLabel := some "au3",
    versionLabel := some "1.0", updatedLabel := none }

/-- A neutral-everything sentiment oracle. -/
def orNeutral : String → Sentiment :=
  fun _ => Sentiment.neutral

/-- A keyword oracle with no features. -/
def vrEmpty : List String → List String :=
  fun _ => []

/-- A JSON parser oracle that always fails. -/
def ldNone : String → Option (List String) :=
  fun _ => none

/-- A date parser oracle that always fails. -/
def isoNone : String → Option Int :=
  fun _ => none

/-! ## Helper lemmas: the ingestion pipeline -/

theorem distinctKeys_iff (l : List StoredReview) :
    distinctKeys l = true ↔ List.Pairwise (fun p q => sameKey p q = false) l := by
  induction l with
  | nil => simp [distinctKeys]
  | cons p ps ih =>
    simp [distinctKeys, List.all_eq_true, ih, List.pairwise_cons, Bool.not_eq_true']

theorem commitOk_parts {db pending : List StoredReview} (h : commitOk db pending = true) :
    distinctKeys pending = true ∧
      ∀ p ∈ pending, ∀ row ∈ db, sameKey row p = false := by
  simp only [commitOk, Bool.and_eq_true, List.all_eq_true, Bool.not_eq_true'] at h
  refine ⟨h.1, fun p hp row hrow => ?_⟩
  have h2 := h.2 p hp
  rw [List.any_eq_false] at h2
  simpa using h2 row hrow

theorem distinctKeys_append {db pending : List StoredReview}
    (h1 : distinctKeys db = true) (h2 : commitOk db pending = true) :
    distinctKeys (db ++ pending) = true := by
  obtain ⟨hpend, hcross⟩ := commitOk_parts h2
  rw [distinctKeys_iff] at h1 hpend ⊢
  rw [List.pairwise_append]
  exact ⟨h1, hpend, fun a ha b hb => hcross b hb a ha⟩

theorem upsertPending_length (db : List StoredReview) (a c : String)
    (rows : List ReviewRecord) (f : Nat → String) (k : Nat) :
    (upsertPending db a c rows f k).2.1 = (upsertPending db a c rows f k).1.length := by
  induction rows generalizing k with
  | nil => simp [upsertPending]
  | cons r rs ih =>
    by_cases h1 : recTruthy r = false
    · simp [upsertPending, h1, ih]
    · by_cases h2 : foundIn db a c r.review_id
      · simp [upsertPending, h1, h2, ih]
      · simp [upsertPending, h1, h2, ih]

theorem upsertPending_mem_key (db : List StoredReview) (a c : String)
    (rows : List ReviewRecord) (f : Nat → String) (k : Nat) :
    ∀ p ∈ (upsertPending db a c rows f k).1, p.app_id = a ∧ p.country = c := by
  induction rows generalizing k with
  | nil => simp [upsertPending]
  | cons r rs ih =>
    by_cases h1 : recTruthy r = false
    · simpa [upsertPending, h1] using ih k
    · by_cases h2 : foundIn db a c r.review_id
      · simpa [upsertPending, h1, h2] using ih k
      · intro p hp
        simp only [upsertPending, if_neg h1, if_neg h2, List.mem_cons] at hp
        rcases hp with hp | hp
        · subst hp; exact ⟨rfl, rfl⟩
        · exact ih _ p hp

theorem countKey_all (l : List StoredReview) (a c : String)
    (h : ∀ p ∈ l, p.app_id = a ∧ p.country = c) : countKey l a c = l.length := by
  rw [countKey, List.countP_eq_length]
  intro p hp
  obtain ⟨h1, h2⟩ := h p hp
  simp [keyMatch, h1, h2]

theorem upsert_success {db : List StoredReview} {a c : String} {rows : List ReviewRecord}
    {f : Nat → String} {k : Nat} {t : List StoredReview × Nat × Nat}
    (h : upsert_reviews db a c rows f k = some t) :
    t = (db ++ (upsertPending db a c rows f k).1,
         (upsertPending db a c rows f k).2.1, (upsertPending db a c rows f k).2.2) ∧
      commitOk db (upsertPending db a c rows f k).1 = true := by
  by_cases hc : commitOk db (upsertPending db a c rows f k).1 = true
  · refine ⟨?_, hc⟩
    simp only [upsert_reviews, hc, if_true] at h
    rw [Option.some.injEq] at h
    exact h.symm
  · simp only [upsert_reviews, if_neg hc] at h
    exact absurd h (by simp)

/-- Splitting a count over an append. -/
theorem countKey_append (db l : List StoredReview) (a c : String) :
    countKey (db ++ l) a c = countKey db a c + countKey l a c := by
  simp [countKey, List.countP_append]

/-- C1: for every batch of candidate records processed by a single
non-concurrent `upsert_reviews` call, the store never ends up with two rows
sharing the same `(app_id, country, review_id)` triple: whether the commit
succeeds or the unique constraint aborts it, a store that was duplicate-free
before is duplicate-free after. -/
theorem upsert_preserves_key_uniqueness (db : List StoredReview) (a c : String)
    (rows : List ReviewRecord) (f : Nat → String) (k : Nat)
    (h : distinctKeys db = true) :
    distinctKeys (storeAfter db (upsert_reviews db a c rows f k)) = true := by
  cases hu : upsert_reviews db a c rows f k with
  | none => simpa [storeAfter] using h
  | some t =>
    obtain ⟨ht, hc⟩ := upsert_success hu
    subst ht
    simpa [storeAfter] using distinctKeys_append h hc

/-- Witness for C1 at a concrete batch (one natural id, one synthesized id)
against the empty store. -/
theorem upsert_preserves_key_uniqueness_witness :
    distinctKeys ([] : List StoredReview) = true ∧
      distinctKeys
        (storeAfter [] (upsert_reviews [] "app1" "us" [recA, recEmptyId] frId 0)) = true :=
  ⟨by decide,
   upsert_preserves_key_uniqueness [] "app1" "us" [recA, recEmptyId] frId 0 (by decide)⟩

/-- C2: for every single non-concurrent `collect_reviews` call that
returns, the returned `inserted_count` equals the returned `net_new_count`
(the post-call stored-row count for the key minus the pre-call count). -/
theorem collect_inserted_eq_net (db : List StoredReview) (a c : String) (n : Nat)
    (pool shuffled : List ReviewRecord) (f : Nat → String) (k : Nat)
    (res : (Nat × Int) × List StoredReview × Nat)
    (h : collect_reviews db a c n pool shuffled f k = some res) :
    (res.1.1 : Int) = res.1.2 := by
  rw [show collect_reviews db a c n pool shuffled f k
      = (if pool.isEmpty then some ((0, 0), db, k)
         else
           match upsert_reviews db a c (shuffled.take n) f k with
           | none => none
           | some (db2, ins, k2) =>
             some ((ins, (countKey db2 a c : Int) - (countKey db a c : Int)), db2, k2))
    from rfl] at h
  by_cases hp : pool.isEmpty
  · rw [if_pos hp, Option.some.injEq] at h
    subst h
    simp
  · rw [if_neg hp] at h
    cases hu : upsert_reviews db a c (shuffled.take n) f k with
    | none => rw [hu] at h; exact absurd h (by simp)
    | some t =>
      obtain ⟨db2, ins, k2⟩ := t
      obtain ⟨ht, hc⟩ := upsert_success hu
      rw [hu] at h
      simp only [Option.some.injEq] at h
      subst h
      simp only [Prod.ext_iff] at ht
      obtain ⟨hdb, hins, hk⟩ := ht
      simp only [hdb, hins]
      rw [countKey_append,
        countKey_all _ a c (upsertPending_mem_key db a c (shuffled.take n) f k),
        upsertPending_length db a c (shuffled.take n) f k]
      push_cast
      ring

/-- Witness for C2 at a concrete call inserting one new review. -/
theorem collect_inserted_eq_net_witness :
    collect_reviews [] "app1" "us" 5 [recA] [recA] frId 0 = some ((1, 1), [rvA], 0) ∧
      ((((1, (1 : Int)), ([rvA], 0)) : (Nat × Int) × List StoredReview × Nat).1.1 : Int)
        = (((1, (1 : Int)), ([rvA], 0)) : (Nat × Int) × List StoredReview × Nat).1.2 :=
  ⟨by decide, collect_inserted_eq_net [] "app1" "us" 5 [recA] [recA] frId 0 _ (by decide)⟩

/-! ## Helper lemmas: idempotence of re-collection -/

theorem upsertPending_skip_all (db : List StoredReview) (a c : String)
    (rows : List ReviewRecord) (f : Nat → String) (k : Nat)
    (h : ∀ r ∈ rows, recTruthy r = false ∨ foundIn db a c r.review_id = true) :
    upsertPending db a c rows f k = ([], 0, k) := by
  induction rows generalizing k with
  | nil => simp [upsertPending]
  | cons r rs ih =>
    have hr := h r (List.mem_cons_self r rs)
    have hrs : ∀ x ∈ rs, recTruthy x = false ∨ foundIn db a c x.review_id = true :=
      fun x hx => h x (List.mem_cons_of_mem r hx)
    rcases hr with hr | hr
    · simp [upsertPending, hr, ih _ hrs]
    · by_cases h1 : recTruthy r = false
      · simp [upsertPending, h1, ih _ hrs]
      · simp [upsertPending, h1, hr, ih _ hrs]

theorem upsertPending_covers (db : List StoredReview) (a c : String)
    (rows : List ReviewRecord) (f : Nat → String) (k : Nat) :
    ∀ r ∈ rows, recTruthy r = true → r.review_id ≠ "" →
      foundIn db a c r.review_id = true ∨
        ∃ p ∈ (upsertPending db a c rows f k).1, p.review_id = r.review_id := by
  induction rows generalizing k with
  | nil => simp
  | cons r0 rs ih =>
    intro r hr htr hne
    rcases List.mem_cons.mp hr with hr | hr
    · subst hr
      by_cases h2 : foundIn db a c r.review_id
      · exact Or.inl h2
      · right
        have h1 : ¬(recTruthy r = false) := by simp [htr]
        have hbe : (r.review_id == "") = false := by
          simp [hne]
        refine ⟨mkStored a c r (if r.review_id == "" then f k else r.review_id), ?_, ?_⟩
        · simp [upsertPending, if_neg h1, if_neg h2]
        · simp [mkStored, hbe]
    · by_cases h1 : recTruthy r0 = false
      · rcases ih k r hr htr hne with h | ⟨p, hp, hpe⟩
        · exact Or.inl h
        · exact Or.inr ⟨p, by simpa [upsertPending, h1] using hp, hpe⟩
      · by_cases h2 : foundIn db a c r0.review_id
        · rcases ih k r hr htr hne with h | ⟨p, hp, hpe⟩
          · exact Or.inl h
          · exact Or.inr ⟨p, by simpa [upsertPending, h1, h2] using hp, hpe⟩
        · rcases ih (if r0.review_id == "" then k + 1 else k) r hr htr hne with h | ⟨p, hp, hpe⟩
          · exact Or.inl h
          · refine Or.inr ⟨p, ?_, hpe⟩
            simp only [upsertPending, if_neg h1, if_neg h2, List.mem_cons]
            exact Or.inr hp

theorem foundIn_append_left {db : List StoredReview} {a c rid : String}
    (l : List StoredReview) (h : foundIn db a c rid = true) :
    foundIn (db ++ l) a c rid = true := by
  rw [foundIn, List.any_eq_true] at h ⊢
  obtain ⟨row, hrow, hpred⟩ := h
  exact ⟨row, List.mem_append_left l hrow, hpred⟩

theorem foundIn_of_mem {l : List StoredReview} {a c : String} {p : StoredReview}
    (db : List StoredReview) (hp : p ∈ l) (ha : p.app_id = a) (hc : p.country = c) :
    foundIn (db ++ l) a c p.review_id = true := by
  rw [foundIn, List.any_eq_true]
  exact ⟨p, List.mem_append_right db hp, by simp [ha, hc]⟩

/-- Unfolding equation for `collect_reviews`. -/
theorem collect_reviews_eq (db : List StoredReview) (a c : String) (n : Nat)
    (pool sh : List ReviewRecord) (f : Nat → String) (k : Nat) :
    collect_reviews db a c n pool sh f k
      = if pool.isEmpty then some ((0, 0), db, k)
        else
          match upsert_reviews db a c (sh.take n) f k with
          | none => none
          | some (db2, ins, k2) =>
            some ((ins, (countKey db2 a c : Int) - (countKey db a c : Int)), db2, k2) :=
  rfl

/-- C3 counterexample: a feed record whose source-supplied review id is
empty defeats the duplicate lookup.  The first call stores it under a
synthesized id; the unchanged feed is re-collected and the second call
inserts it AGAIN (inserted_count 1, not 0) under a fresh synthesized id. -/
theorem collect_recollect_cex :
    collect_reviews [] "app1" "us" 1 [recEmptyId] [recEmptyId] frId 0
        = some ((1, 1), [rvE0], 1) ∧
      collect_reviews [rvE0] "app1" "us" 1 [recEmptyId] [recEmptyId] frId 1
        = some ((1, 1), [rvE0, rvE1], 2) ∧
      (1 : Nat) ≠ 0 :=
  ⟨by decide, by decide, by decide⟩

/-- C3 (amended): when every fetched record carries a non-empty
source-supplied review id, the sample covers the whole pool
(`how_many` at least the pool size) and the first call commits, re-running
`collect_reviews` on the unchanged feed inserts nothing: the second call
returns inserted_count 0 (and net 0) with the store unchanged. -/
theorem collect_recollect_inserts_zero
    (db : List StoredReview) (a c : String) (n1 n2 : Nat)
    (pool sh1 sh2 : List ReviewRecord) (f : Nat → String) (k : Nat)
    (res : (Nat × Int) × List StoredReview × Nat)
    (hids : ∀ r ∈ pool, r.review_id ≠ "")
    (hn1 : pool.length ≤ n1) (hn2 : pool.length ≤ n2)
    (hp1 : sh1.Perm pool) (hp2 : sh2.Perm pool)
    (h1 : collect_reviews db a c n1 pool sh1 f k = some res) :
    collect_reviews res.2.1 a c n2 pool sh2 f res.2.2
      = some ((0, 0), res.2.1, res.2.2) := by
  obtain ⟨⟨rins, rnet⟩, rdb, rk⟩ := res
  show collect_reviews rdb a c n2 pool sh2 f rk = some ((0, 0), rdb, rk)
  by_cases hpool : pool.isEmpty
  · have hpe : pool = [] := List.isEmpty_iff.mp hpool
    subst hpe
    rw [collect_reviews_eq, if_pos hpool, Option.some.injEq] at h1
    simp only [Prod.ext_iff] at h1
    obtain ⟨-, hdb, hk⟩ := h1
    subst hdb; subst hk
    rw [collect_reviews_eq, if_pos hpool]
  · have htake1 : sh1.take n1 = sh1 :=
      List.take_of_length_le (by rw [hp1.length_eq]; exact hn1)
    have htake2 : sh2.take n2 = sh2 :=
      List.take_of_length_le (by rw [hp2.length_eq]; exact hn2)
    rw [collect_reviews_eq, if_neg hpool] at h1
    cases hu : upsert_reviews db a c (sh1.take n1) f k with
    | none => rw [hu] at h1; exact absurd h1 (by simp)
    | some t =>
      obtain ⟨db2, ins, k2⟩ := t
      rw [hu] at h1
      simp only [Option.some.injEq, Prod.ext_iff] at h1
      obtain ⟨-, hdb, hk⟩ := h1
      subst hdb; subst hk
      obtain ⟨ht, hc⟩ := upsert_success hu
      simp only [Prod.ext_iff] at ht
      obtain ⟨hdb2, -, -⟩ := ht
      have hskip : ∀ r ∈ sh2.take n2,
          recTruthy r = false ∨ foundIn db2 a c r.review_id = true := by
        intro r hr
        rw [htake2] at hr
        have hrpool : r ∈ pool := hp2.mem_iff.mp hr
        by_cases htr : recTruthy r = true
        · right
          have hne := hids r hrpool
          have hrsh1 : r ∈ sh1.take n1 := by
            rw [htake1]; exact hp1.mem_iff.mpr hrpool
          rcases upsertPending_covers db a c (sh1.take n1) f k r hrsh1 htr hne with
            hf | ⟨p, hp, hpe⟩
          · rw [hdb2]; exact foundIn_append_left _ hf
          · rw [hdb2, ← hpe]
            obtain ⟨hpa, hpc⟩ := upsertPending_mem_key db a c (sh1.take n1) f k p hp
            exact foundIn_of_mem db hp hpa hpc
        · left; simpa using htr
      have hps : upsertPending db2 a c (sh2.take n2) f k2 = ([], 0, k2) :=
        upsertPending_skip_all db2 a c (sh2.take n2) f k2 hskip
      have hu2 : upsert_reviews db2 a c (sh2.take n2) f k2 = some (db2, 0, k2) := by
        simp [upsert_reviews, hps, commitOk, distinctKeys]
      rw [collect_reviews_eq, if_neg hpool, hu2]
      simp

/-- Witness for the amended C3 at a concrete one-record feed with a
non-empty review id: the second collection inserts nothing. -/
theorem collect_recollect_inserts_zero_witness :
    (∀ r ∈ [recA], r.review_id ≠ "") ∧ [recA].length ≤ 1 ∧
      collect_reviews [] "app1" "us" 1 [recA] [recA] frId 0 = some ((1, 1), [rvA], 0) ∧
      collect_reviews [rvA] "app1" "us" 1 [recA] [recA] frId 0
        = some ((0, 0), [rvA], 0) :=
  ⟨by decide, by decide, by decide,
   collect_recollect_inserts_zero [] "app1" "us" 1 1 [recA] [recA] [recA] frId 0
     ((1, 1), [rvA], 0) (by decide) (by decide) (by decide)
     (List.Perm.refl _) (List.Perm.refl _) (by decide)⟩

/-! ## Helper lemmas: rating invariants -/

theorem upsertPending_rating_nonzero (db : List StoredReview) (a c : String)
    (rows : List ReviewRecord) (f : Nat → String) (k : Nat) :
    ∀ p ∈ (upsertPending db a c rows f k).1, ∃ v, p.rating = some v ∧ v ≠ 0 := by
  induction rows generalizing k with
  | nil => simp [upsertPending]
  | cons r rs ih =>
    by_cases h1 : recTruthy r = false
    · simpa [upsertPending, h1] using ih k
    · by_cases h2 : foundIn db a c r.review_id
      · simpa [upsertPending, h1, h2] using ih k
      · intro p hp
        simp only [upsertPending, if_neg h1, if_neg h2, List.mem_cons] at hp
        rcases hp with hp | hp
        · subst hp
          rw [recTruthy] at h1
          match hv : r.rating with
          | none => rw [hv] at h1; exact absurd rfl h1
          | some v =>
            rw [hv] at h1
            refine ⟨v, by simp [mkStored, hv], ?_⟩
            intro hz
            subst hz
            exact h1 (by simp)
        · exact ih _ p hp

/-- C5 counterexample: a candidate whose rating 6 lies outside 1 to 5 is
Python-truthy, passes the only rating guard, and is persisted: the
committed store holds a row with rating 6, which is not between 1 and 5. -/
theorem upsert_rating_range_cex :
    upsert_reviews [] "app1" "us" [recSix] frId 0 = some ([srOf "x6" 6], 1, 0) ∧
      (srOf "x6" 6).rating = some 6 ∧ ¬((1 : Int) ≤ 6 ∧ (6 : Int) ≤ 5) :=
  ⟨by decide, by decide, by decide⟩

/-- C5 (amended): every row persisted by the ingestion pipeline has a
present, NONZERO integer rating (candidates with rating 0 or absent are
rejected before persistence); the code does not bound the rating to the
1 to 5 range. -/
theorem upsert_ratings_nonzero (db : List StoredReview) (a c : String)
    (rows : List ReviewRecord) (f : Nat → String) (k : Nat)
    (h : ∀ row ∈ db, ∃ v, row.rating = some v ∧ v ≠ 0) :
    ∀ row ∈ storeAfter db (upsert_reviews db a c rows f k),
      ∃ v, row.rating = some v ∧ v ≠ 0 := by
  cases hu : upsert_reviews db a c rows f k with
  | none => simpa [storeAfter] using h
  | some t =>
    obtain ⟨ht, hc⟩ := upsert_success hu
    subst ht
    intro row hrow
    simp only [storeAfter, List.mem_append] at hrow
    rcases hrow with hrow | hrow
    · exact h row hrow
    · exact upsertPending_rating_nonzero db a c rows f k row hrow

/-- Witness for the amended C5: a concrete batch against the empty store. -/
theorem upsert_ratings_nonzero_witness :
    (∀ row ∈ ([] : List StoredReview), ∃ v, row.rating = some v ∧ v ≠ 0) ∧
      ∀ row ∈ storeAfter [] (upsert_reviews [] "app1" "us" [recA, recEmptyId] frId 0),
        ∃ v, row.rating = some v ∧ v ≠ 0 :=
  ⟨by simp,
   upsert_ratings_nonzero [] "app1" "us" [recA, recEmptyId] frId 0 (by simp)⟩

/-! ## Helper lemmas: unrated candidates are transparent -/

theorem upsertPending_filter (db : List StoredReview) (a c : String)
    (rows : List ReviewRecord) (f : Nat → String) (k : Nat) :
    upsertPending db a c rows f k = upsertPending db a c (rows.filter recTruthy) f k := by
  induction rows generalizing k with
  | nil => simp [upsertPending]
  | cons r rs ih =>
    by_cases h1 : recTruthy r = false
    · simp [upsertPending, h1, List.filter_cons, ih]
    · have h1t : recTruthy r = true := by simpa using h1
      by_cases h2 : foundIn db a c r.review_id
      · simp [upsertPending, h1, h1t, h2, List.filter_cons, ih]
      · simp [upsertPending, h1, h1t, h2, List.filter_cons, ih]

/-- C7: candidates with rating 0 or absent are silently excluded: the
pipeline result (store, inserted count, id-sequence position) of any batch
equals that of the batch with unrated candidates filtered away; and a
concrete pool of exactly 3 distinct rated records with how_many 5 inserts
exactly 3 rows, not 5. -/
theorem upsert_excludes_unrated :
    (∀ (db : List StoredReview) (a c : String) (rows : List ReviewRecord)
        (f : Nat → String) (k : Nat),
      upsert_reviews db a c rows f k
        = upsert_reviews db a c (rows.filter recTruthy) f k) ∧
      (collect_reviews [] "app1" "us" 5 [recA, recB, recC] [recA, recB, recC] frId 0).map
          (fun t => t.1)
        = some (3, 3) := by
  constructor
  · intro db a c rows f k
    rw [upsert_reviews, upsert_reviews, upsertPending_filter]
  · decide

/-- C4 counterexample: on a page holding a malformed-rating entry followed
by a perfectly valid entry, `fetch` returns NO records at all: the
ValueError from `int` aborts the whole page inside the page-level
try/except, so the malformed entry does not become a rating-0 record and
the valid entry of the same page is lost (it parses fine on its own). -/
theorem fetch_malformed_rating_cex :
    RSSCollector_fetch isoNone [FeedPage.ok (some [entryBadRating, entryGood])] = [] ∧
      RSSCollector_fetch isoNone [FeedPage.ok (some [entryGood])]
        = [mkRecord isoNone entryGood 5] ∧
      RSSCollector_fetch isoNone [FeedPage.ok none] = [] :=
  ⟨by decide, by decide, by decide⟩

/-- C4 (amended): a page whose JSON lacks an entry list (and likewise a
failed page) contributes zero records without raising; an entry whose
rating key is present with NO label yields a record with rating 0 and the
rest of the page is still parsed; but an entry whose rating label does not
parse as an integer aborts the remainder of its page (the entry yields no
record and later entries of that page are dropped), still without raising. -/
theorem fetch_rating_amended (pIso : String → Option Int) (ps : List FeedPage)
    (e : FeedEntry) (es : List FeedEntry) (s : String) :
    (RSSCollector_fetch pIso (FeedPage.ok none :: ps) = RSSCollector_fetch pIso ps) ∧
      (RSSCollector_fetch pIso (FeedPage.fail :: ps) = RSSCollector_fetch pIso ps) ∧
      (e.imRating = some none →
        processEntries pIso (e :: es) = mkRecord pIso e 0 :: processEntries pIso es) ∧
      (e.imRating = some (some s) → pyInt s = none →
        processEntries pIso (e :: es) = []) := by
  refine ⟨?_, ?_, ?_, ?_⟩
  · simp [RSSCollector_fetch, processEntries]
  · simp [RSSCollector_fetch]
  · intro h
    simp [processEntries, h]
  · intro h h2
    simp [processEntries, h, h2]

/-- Witness for the amended C4 at concrete entries: a label-free rating
yields rating 0, a malformed label empties the rest of the page. -/
theorem fetch_rating_amended_witness :
    entryNoLabel.imRating = some none ∧
      processEntries isoNone [entryNoLabel] = [mkRecord isoNone entryNoLabel 0] ∧
      entryBadRating.imRating = some (some "x") ∧ pyInt "x" = none ∧
      processEntries isoNone [entryBadRating, entryGood] = [] := by
  refine ⟨by decide, ?_, by decide, by decide, ?_⟩
  · have h := (fetch_rating_amended isoNone [] entryNoLabel [] "x").2.2.1 rfl
    simpa [processEntries] using h
  · exact (fetch_rating_amended isoNone [] entryBadRating [entryGood] "x").2.2.2 rfl
      (by decide)

/-! ## Helper lemmas: rounding evaluation -/

theorem rat_floor_eq_intFloor (q : ℚ) : q.floor = ⌊q⌋ := by
  rw [Rat.floor_def', Rat.floor_def]

theorem round2_down {q : ℚ} {n : ℤ} (h1 : (n : ℚ) ≤ q * 100) (h2 : q * 100 < (n : ℚ) + 1)
    (h3 : q * 100 - (n : ℚ) < 1/2) : round2 q = (n : ℚ) / 100 := by
  have hf : (q * 100).floor = n := by
    rw [rat_floor_eq_intFloor]
    rw [Int.floor_eq_iff]
    · exact ⟨h1, by linarith⟩
  simp only [round2, roundHalfEven, hf]
  rw [if_pos h3]

theorem round2_up {q : ℚ} {n : ℤ} (h1 : (n : ℚ) ≤ q * 100) (h2 : q * 100 < (n : ℚ) + 1)
    (h3 : 1/2 < q * 100 - (n : ℚ)) : round2 q = ((n : ℚ) + 1) / 100 := by
  have hf : (q * 100).floor = n := by
    rw [rat_floor_eq_intFloor]
    rw [Int.floor_eq_iff]
    · exact ⟨h1, by linarith⟩
  simp only [round2, roundHalfEven, hf]
  rw [if_neg (by linarith), if_pos h3]
  push_cast
  ring

/-- C6: `compute_metrics` returns the zero snapshot when no reviews are
stored for the key; otherwise its count is the number of rated reviews; and
on the concrete store with ratings [5, 5, 3] it returns count 3, average
4.33, and distribution 3 to 33.33 percent, 5 to 66.67 percent, keys in
ascending rating order. -/
theorem compute_metrics_spec (db : List StoredReview) (a c : String) :
    ((db.filter (keyMatch a c)).isEmpty = true →
      compute_metrics db a c
        = { count := 0, average_rating := 0, distribution := [] }) ∧
      ((db.filter (keyMatch a c)).isEmpty = false →
        (compute_metrics db a c).count
          = ((db.filter (keyMatch a c)).filterMap (fun r => r.rating)).length) ∧
      compute_metrics dbMetricsEx "app1" "us"
        = { count := 3, average_rating := 433/100,
            distribution := [("3", 3333/100), ("5", 6667/100)] } := by
  refine ⟨?_, ?_, ?_⟩
  · intro h
    simp [compute_metrics, h]
  · intro h
    simp [compute_metrics, h]
  · have ha : round2 ((13 : ℚ) / 3) = 433 / 100 := by
      rw [round2_down (n := 433) (by norm_num) (by norm_num) (by norm_num)]
      norm_num
    have hb : round2 ((1 : ℚ) * 100 / 3) = 3333 / 100 := by
      rw [round2_down (n := 3333) (by norm_num) (by norm_num) (by norm_num)]
      norm_num
    have hcr : round2 ((2 : ℚ) * 100 / 3) = 6667 / 100 := by
      rw [round2_up (n := 6666) (by norm_num) (by norm_num) (by norm_num)]
      norm_num
    rw [show compute_metrics dbMetricsEx "app1" "us"
        = { count := 3, average_rating := round2 ((13 : ℚ) / 3),
            distribution := [("3", round2 ((1 : ℚ) * 100 / 3)),
                             ("5", round2 ((2 : ℚ) * 100 / 3))] } from rfl,
      ha, hb, hcr]

/-- Witness for C6 at the empty store. -/
theorem compute_metrics_spec_witness :
    (([] : List StoredReview).filter (keyMatch "app1" "us")).isEmpty = true ∧
      compute_metrics [] "app1" "us"
        = { count := 0, average_rating := 0, distribution := [] } :=
  ⟨by decide, (compute_metrics_spec [] "app1" "us").1 (by decide)⟩

/-! ## Helper lemmas: recommendation list bounds -/

theorem jsonAttempt_bounds {out1 : String} {loads : String → Option (List String)}
    {arr : List String} (h : jsonAttempt out1 loads = some arr) :
    3 ≤ arr.length ∧ arr.length ≤ 5 := by
  rcases he : extract_json_array out1 with _ | blob
  · simp only [jsonAttempt, he] at h
    exact absurd h (by simp)
  · rcases hl : loads blob with _ | arr0
    · simp only [jsonAttempt, he, hl] at h
      exact absurd h (by simp)
    · simp only [jsonAttempt, he, hl] at h
      split at h
      · next hc =>
        simp only [Bool.and_eq_true, decide_eq_true_eq] at hc
        rw [Option.some.injEq] at h
        subst h
        exact hc
      · exact absurd h (by simp)

theorem bulletLines_le (out2 : String) : (bulletLines out2).length ≤ 5 :=
  List.length_take_le 5 _

/-- C8 counterexample: on an empty negative-text list the generator returns
the single-element guard message, so the result is not a list of 3 to 5
strings. -/
theorem generate_recs_cex :
    generate_recommendations_from_reviews "" "" ldNone [] = [noNegMsg] ∧
      (generate_recommendations_from_reviews "" "" ldNone []).length = 1 ∧
      ¬(3 ≤ (generate_recommendations_from_reviews "" "" ldNone []).length) :=
  ⟨rfl, rfl, by decide⟩

/-- C8 (amended): for every input list and every possible generator and
parser output, `generate_recommendations_from_reviews` returns a non-empty
list of at most 5 strings and never raises; the 3-to-5 guarantee holds on
the successful JSON path, while the guard message, the bullet path, and the
5-element hard-coded fallback can return 1 to 5 strings. -/
theorem generate_recs_bounds (out1 out2 : String)
    (loads : String → Option (List String)) (texts : List String) :
    generate_recommendations_from_reviews out1 out2 loads texts ≠ [] ∧
      (generate_recommendations_from_reviews out1 out2 loads texts).length ≤ 5 := by
  unfold generate_recommendations_from_reviews
  by_cases hemp : texts.isEmpty
  · rw [if_pos hemp]
    exact ⟨by simp, by simp⟩
  · rw [if_neg hemp]
    cases hj : jsonAttempt out1 loads with
    | some arr =>
      obtain ⟨h3, h5⟩ := jsonAttempt_bounds hj
      show arr ≠ [] ∧ arr.length ≤ 5
      refine ⟨fun hnil => ?_, h5⟩
      rw [hnil] at h3
      simp at h3
    | none =>
      show (if (bulletLines out2).isEmpty then fallbackRecs else bulletLines out2) ≠ [] ∧
        (if (bulletLines out2).isEmpty then fallbackRecs else bulletLines out2).length ≤ 5
      by_cases hb : (bulletLines out2).isEmpty
      · rw [if_pos hb]
        refine ⟨?_, ?_⟩
        · intro hnil
          rw [fallbackRecs] at hnil
          exact absurd hnil (by simp)
        · rw [fallbackRecs]
          simp
      · rw [if_neg hb]
        exact ⟨fun hnil => hb (by rw [hnil]; rfl), bulletLines_le out2⟩

/-- C9: `analyze_insights` never divides by zero: with zero stored reviews
for the key it returns empty count and percentage mappings and an empty
keyword list (the percentage denominator is defaulted to 1), and with
reviews present every percentage entry is the label count's share of the
total review count, rounded to 2 decimals. -/
theorem analyze_insights_spec (oracle : String → Sentiment)
    (vecRank : List String → List String) (out1 out2 : String)
    (loads : String → Option (List String)) (db : List StoredReview) (a c : String) :
    (db.filter (keyMatch a c) = [] →
        (analyze_insights oracle vecRank out1 out2 loads db a c).sentiment_counts = [] ∧
          (analyze_insights oracle vecRank out1 out2 loads db a c).sentiment_percent = [] ∧
          (analyze_insights oracle vecRank out1 out2 loads db a c).top_negative_keywords
            = []) ∧
      (db.filter (keyMatch a c) ≠ [] →
        ∀ l q,
          (l, q) ∈ (analyze_insights oracle vecRank out1 out2 loads db a c).sentiment_percent →
            q = round2 ((((db.filter (keyMatch a c)).map
                  (fun r => classify_sentiment oracle r.text)).count l : ℚ) * 100 /
                ((db.filter (keyMatch a c)).length : ℚ))) := by
  constructor
  · intro h
    simp [analyze_insights, h, top_keywords, firstOcc, firstOccAux]
  · intro h l q hmem
    simp only [analyze_insights, List.mem_map] at hmem
    obtain ⟨l0, hl0, heq⟩ := hmem
    injection heq with h1 h2
    subst h1
    subst h2
    have hne : ¬(((db.filter (keyMatch a c)).map
        (fun r => classify_sentiment oracle r.text)).isEmpty = true) := by
      simp only [List.isEmpty_iff, List.map_eq_nil_iff]
      exact h
    rw [if_neg hne, List.length_map]

/-- Witness for C9: the empty store yields empty mappings, and a singleton
store yields the percentage formula with denominator the review count. -/
theorem analyze_insights_spec_witness :
    (analyze_insights orNeutral vrEmpty "" "" ldNone [] "app1" "us").sentiment_percent = [] ∧
      round2 (((([srOf "m1" 5].filter (keyMatch "app1" "us")).map
            (fun r => classify_sentiment orNeutral r.text)).count Sentiment.neutral : ℚ)
            * 100 /
          ((if (([srOf "m1" 5].filter (keyMatch "app1" "us")).map
                  (fun r => classify_sentiment orNeutral r.text)).isEmpty then 1
            else (([srOf "m1" 5].filter (keyMatch "app1" "us")).map
                  (fun r => classify_sentiment orNeutral r.text)).length : Nat) : ℚ))
        = round2 (((([srOf "m1" 5].filter (keyMatch "app1" "us")).map
              (fun r => classify_sentiment orNeutral r.text)).count Sentiment.neutral : ℚ)
              * 100 /
            (([srOf "m1" 5].filter (keyMatch "app1" "us")).length : ℚ)) := by
  constructor
  · exact ((analyze_insights_spec orNeutral vrEmpty "" "" ldNone [] "app1" "us").1 rfl).2.1
  · exact (analyze_insights_spec orNeutral vrEmpty "" "" ldNone [srOf "m1" 5]
      "app1" "us").2 (by decide) Sentiment.neutral _ (List.mem_cons_self _ _)

/-! ## Helper lemmas: the text normalizer -/

theorem replWs_idem (c : Char) : replWs (replWs c) = replWs c := by
  by_cases h : c = '\u200B' || c = '\u00A0'
  · have h1 : replWs c = ' ' := by
      rw [replWs, if_pos (by simpa using h)]
    rw [h1, replWs, if_neg (by decide)]
  · have h1 : replWs c = c := by
      rw [replWs, if_neg (by simpa using h)]
    simp [h1]

theorem collapseWs_mem {b : Bool} {l : List Char} {c : Char}
    (h : c ∈ collapseWs b l) : c = ' ' ∨ c ∈ l := by
  induction l generalizing b with
  | nil => simp [collapseWs] at h
  | cons d ds ih =>
    by_cases hd : isPyWs d
    · rcases b with _ | _
      · simp only [collapseWs, if_pos hd] at h
        rcases List.mem_cons.mp h with h | h
        · exact Or.inl h
        · rcases ih h with h | h
          · exact Or.inl h
          · exact Or.inr (List.mem_cons_of_mem d h)
      · simp only [collapseWs, if_pos hd] at h
        rcases ih h with h | h
        · exact Or.inl h
        · exact Or.inr (List.mem_cons_of_mem d h)
    · simp only [collapseWs, if_neg hd] at h
      rcases List.mem_cons.mp h with h | h
      · exact Or.inr (h ▸ List.mem_cons_self d ds)
      · rcases ih h with h | h
        · exact Or.inl h
        · exact Or.inr (List.mem_cons_of_mem d h)

theorem collapseWs_ws_space {b : Bool} {l : List Char} :
    ∀ c ∈ collapseWs b l, isPyWs c = true → c = ' ' := by
  induction l generalizing b with
  | nil => simp [collapseWs]
  | cons d ds ih =>
    intro c hc hws
    by_cases hd : isPyWs d
    · rcases b with _ | _
      · simp only [collapseWs, if_pos hd] at hc
        rcases List.mem_cons.mp hc with hc | hc
        · exact hc
        · exact ih c hc hws
      · simp only [collapseWs, if_pos hd] at hc
        exact ih c hc hws
    · simp only [collapseWs, if_neg hd] at hc
      rcases List.mem_cons.mp hc with hc | hc
      · subst hc; exact absurd hws (by simp [hd])
      · exact ih c hc hws

theorem collapseWs_true_head (l : List Char) :
    headWsFree (collapseWs true l) = true := by
  induction l with
  | nil => rfl
  | cons d ds ih =>
    by_cases hd : isPyWs d
    · simpa [collapseWs, if_pos hd] using ih
    · simp [collapseWs, if_neg hd, headWsFree, hd]

theorem noAdjWs_cons_of_head {l : List Char} (c : Char)
    (h1 : headWsFree l = true) (h2 : noAdjWs l = true) : noAdjWs (c :: l) = true := by
  cases l with
  | nil => rfl
  | cons d ds =>
    rw [headWsFree] at h1
    rw [noAdjWs, Bool.and_eq_true]
    refine ⟨?_, h2⟩
    simp only [Bool.not_eq_true'] at h1 ⊢
    simp [h1]

theorem noAdjWs_cons_left {l : List Char} {c : Char}
    (h1 : isPyWs c = false) (h2 : noAdjWs l = true) : noAdjWs (c :: l) = true := by
  cases l with
  | nil => rfl
  | cons d ds =>
    rw [noAdjWs, Bool.and_eq_true]
    exact ⟨by simp [h1], h2⟩

theorem noAdjWs_tail {l : List Char} {c : Char}
    (h : noAdjWs (c :: l) = true) : noAdjWs l = true := by
  cases l with
  | nil => rfl
  | cons d ds =>
    rw [noAdjWs, Bool.and_eq_true] at h
    exact h.2

theorem collapseWs_noAdj (l : List Char) :
    ∀ b, noAdjWs (collapseWs b l) = true := by
  induction l with
  | nil => intro b; rfl
  | cons d ds ih =>
    intro b
    by_cases hd : isPyWs d
    · rcases b with _ | _
      · simp only [collapseWs, if_pos hd]
        exact noAdjWs_cons_of_head ' ' (collapseWs_true_head ds) (ih true)
      · simp only [collapseWs, if_pos hd]
        exact ih true
    · simp only [collapseWs, if_neg hd]
      exact noAdjWs_cons_left (by simpa using hd) (ih false)

theorem dropTrailWs_cons (c : Char) (cs : List Char) :
    dropTrailWs (c :: cs)
      = if (dropTrailWs cs).isEmpty && isPyWs c then [] else c :: dropTrailWs cs :=
  rfl

theorem dropTrailWs_head (c : Char) (cs : List Char) :
    dropTrailWs (c :: cs) = [] ∨ dropTrailWs (c :: cs) = c :: dropTrailWs cs := by
  rw [dropTrailWs_cons]
  by_cases hif : (dropTrailWs cs).isEmpty && isPyWs c
  · exact Or.inl (if_pos hif)
  · exact Or.inr (if_neg hif)

theorem dropTrailWs_mem {l : List Char} {c : Char} (h : c ∈ dropTrailWs l) : c ∈ l := by
  induction l with
  | nil => simp [dropTrailWs] at h
  | cons d ds ih =>
    rcases dropTrailWs_head d ds with he | he
    · rw [he] at h
      simp at h
    · rw [he] at h
      rcases List.mem_cons.mp h with h | h
      · exact h ▸ List.mem_cons_self d ds
      · exact List.mem_cons_of_mem d (ih h)

theorem dropWhileWs_mem {l : List Char} {c : Char}
    (h : c ∈ l.dropWhile isPyWs) : c ∈ l := by
  induction l with
  | nil => simp at h
  | cons d ds ih =>
    rw [List.dropWhile_cons] at h
    by_cases hd : isPyWs d
    · rw [if_pos (by simp [hd])] at h
      exact List.mem_cons_of_mem d (ih h)
    · rw [if_neg (by simp [hd])] at h
      exact h

theorem headWsFree_dropWhile (l : List Char) :
    headWsFree (l.dropWhile isPyWs) = true := by
  induction l with
  | nil => rfl
  | cons d ds ih =>
    rw [List.dropWhile_cons]
    by_cases hd : isPyWs d
    · rw [if_pos (by simp [hd])]
      exact ih
    · rw [if_neg (by simp [hd])]
      simpa [headWsFree] using hd

theorem noAdjWs_dropWhile {l : List Char} (h : noAdjWs l = true) :
    noAdjWs (l.dropWhile isPyWs) = true := by
  induction l with
  | nil => rfl
  | cons d ds ih =>
    rw [List.dropWhile_cons]
    by_cases hd : isPyWs d
    · rw [if_pos (by simp [hd])]
      exact ih (noAdjWs_tail h)
    · rw [if_neg (by simp [hd])]
      exact h

theorem dropTrailWs_headWsFree {l : List Char} (h : headWsFree l = true) :
    headWsFree (dropTrailWs l) = true := by
  cases l with
  | nil => rfl
  | cons c cs =>
    rcases dropTrailWs_head c cs with he | he
    · rw [he]; rfl
    · rw [he]
      exact h

theorem dropTrailWs_noAdj {l : List Char} (h : noAdjWs l = true) :
    noAdjWs (dropTrailWs l) = true := by
  induction l with
  | nil => rfl
  | cons c cs ih =>
    have htail := ih (noAdjWs_tail h)
    rcases dropTrailWs_head c cs with he | he
    · rw [he]; rfl
    · rw [he]
      cases cs with
      | nil => rfl
      | cons e es =>
        rcases dropTrailWs_head e es with he2 | he2
        · rw [he2]; rfl
        · rw [he2]
          rw [noAdjWs, Bool.and_eq_true]
          constructor
          · rw [noAdjWs, Bool.and_eq_true] at h
            exact h.1
          · rw [← he2]
            exact htail

theorem dropTrailWs_lastWsFree (l : List Char) :
    lastWsFree (dropTrailWs l) = true := by
  induction l with
  | nil => rfl
  | cons c cs ih =>
    rw [dropTrailWs_cons]
    by_cases hif : (dropTrailWs cs).isEmpty && isPyWs c
    · rw [if_pos hif]; rfl
    · rw [if_neg hif]
      cases hr : dropTrailWs cs with
      | nil =>
        have hcw : isPyWs c = false := by
          rw [hr] at hif
          simpa using hif
        simp [lastWsFree, hcw]
      | cons d t =>
        show lastWsFree (d :: t) = true
        rw [← hr]
        exact ih

theorem collapseWs_true_of_head {l : List Char} (h : headWsFree l = true) :
    collapseWs true l = collapseWs false l := by
  cases l with
  | nil => rfl
  | cons c cs =>
    rw [headWsFree, Bool.not_eq_true'] at h
    simp [collapseWs, h]

theorem collapseWs_id {l : List Char} (h1 : ∀ c ∈ l, isPyWs c = true → c = ' ')
    (h2 : noAdjWs l = true) : collapseWs false l = l := by
  induction l with
  | nil => rfl
  | cons c cs ih =>
    have h1t : ∀ x ∈ cs, isPyWs x = true → x = ' ' :=
      fun x hx => h1 x (List.mem_cons_of_mem c hx)
    by_cases hc : isPyWs c
    · have hsp : c = ' ' := h1 c (List.mem_cons_self c cs) hc
      have hhead : headWsFree cs = true := by
        cases cs with
        | nil => rfl
        | cons d ds =>
          rw [noAdjWs, Bool.and_eq_true] at h2
          have hnd := h2.1
          rw [Bool.not_eq_true'] at hnd
          rw [hc, Bool.true_and] at hnd
          rw [headWsFree, hnd]
          rfl
      simp only [collapseWs, if_pos hc, Bool.false_eq_true, if_false]
      rw [collapseWs_true_of_head hhead, ih h1t (noAdjWs_tail h2), hsp]
    · simp only [collapseWs, if_neg hc]
      rw [ih h1t (noAdjWs_tail h2)]

theorem dropWhileWs_id {l : List Char} (h : headWsFree l = true) :
    l.dropWhile isPyWs = l := by
  cases l with
  | nil => rfl
  | cons c cs =>
    rw [headWsFree, Bool.not_eq_true'] at h
    rw [List.dropWhile_cons, if_neg (by simp [h])]

theorem dropTrailWs_id {l : List Char} (h : lastWsFree l = true) : dropTrailWs l = l := by
  induction l with
  | nil => rfl
  | cons c cs ih =>
    cases cs with
    | nil =>
      rw [lastWsFree, Bool.not_eq_true'] at h
      rw [dropTrailWs_cons, if_neg (by simp [dropTrailWs, h])]
      rfl
    | cons d ds =>
      have ihr := ih (show lastWsFree (d :: ds) = true from h)
      rw [dropTrailWs_cons, ihr, if_neg (by simp)]

theorem map_replWs_id {l : List Char} (h : ∀ c ∈ l, replWs c = c) :
    l.map replWs = l := by
  induction l with
  | nil => rfl
  | cons c cs ih =>
    rw [List.map_cons, h c (List.mem_cons_self c cs),
      ih (fun x hx => h x (List.mem_cons_of_mem c hx))]

theorem cleanList_mem {l : List Char} {c : Char} (h : c ∈ cleanList l) :
    c ∈ collapseWs false (l.map replWs) :=
  dropWhileWs_mem (dropTrailWs_mem h)

theorem cleanList_ws_space (l : List Char) :
    ∀ c ∈ cleanList l, isPyWs c = true → c = ' ' :=
  fun c hc => collapseWs_ws_space c (cleanList_mem hc)

theorem cleanList_fix (l : List Char) : ∀ c ∈ cleanList l, replWs c = c := by
  intro c hc
  rcases collapseWs_mem (cleanList_mem hc) with h | h
  · subst h
    decide
  · obtain ⟨d, -, hd⟩ := List.mem_map.mp h
    rw [← hd]
    exact replWs_idem d

theorem cleanList_noAdj (l : List Char) : noAdjWs (cleanList l) = true :=
  dropTrailWs_noAdj (noAdjWs_dropWhile (collapseWs_noAdj (l.map replWs) false))

theorem cleanList_head (l : List Char) : headWsFree (cleanList l) = true :=
  dropTrailWs_headWsFree (headWsFree_dropWhile (collapseWs false (l.map replWs)))

theorem cleanList_last (l : List Char) : lastWsFree (cleanList l) = true :=
  dropTrailWs_lastWsFree ((collapseWs false (l.map replWs)).dropWhile isPyWs)

theorem cleanList_idem (l : List Char) : cleanList (cleanList l) = cleanList l := by
  have e1 : (cleanList l).map replWs = cleanList l :=
    map_replWs_id (cleanList_fix l)
  have e2 : collapseWs false (cleanList l) = cleanList l :=
    collapseWs_id (cleanList_ws_space l) (cleanList_noAdj l)
  have e3 : (cleanList l).dropWhile isPyWs = cleanList l :=
    dropWhileWs_id (cleanList_head l)
  have e4 : dropTrailWs (cleanList l) = cleanList l :=
    dropTrailWs_id (cleanList_last l)
  show pstrip (collapseWs false ((cleanList l).map replWs)) = cleanList l
  rw [e1, e2, pstrip, e3, e4]

/-- C10: `clean_text` is idempotent, and its output never has leading or
trailing whitespace nor two adjacent whitespace characters. -/
theorem clean_text_spec (s : String) :
    clean_text (clean_text s) = clean_text s ∧
      headWsFree (clean_text s).data = true ∧
      lastWsFree (clean_text s).data = true ∧
      noAdjWs (clean_text s).data = true := by
  by_cases hemp : s.data.isEmpty
  · have hcs : clean_text s = "" := by rw [clean_text, if_pos hemp]
    rw [hcs]
    exact ⟨rfl, rfl, rfl, rfl⟩
  · have hcs : clean_text s = String.mk (cleanList s.data) := by
      rw [clean_text, if_neg hemp]
    rw [hcs]
    refine ⟨?_, cleanList_head s.data, cleanList_last s.data, cleanList_noAdj s.data⟩
    rw [clean_text]
    by_cases h2 : (String.mk (cleanList s.data)).data.isEmpty
    · rw [if_pos h2]
      have hnil : cleanList s.data = [] := List.isEmpty_iff.mp h2
      rw [hnil]
    · rw [if_neg h2]
      exact congrArg String.mk (cleanList_idem s.data)
